import Mathlib

/- Verification of the taskWolf HN /newest collector (src/index.js): a shallow
   embedding of the page extraction code, the collection loop, the reporter
   record, and the CLI argument parsing, together with proofs of the claims made by the spec
    about them.

   JS strings are modelled as Lean String; the JS string operations used by the
   code (startsWith, split, trim, replace of one leading slash) are implemented
   structurally over the character list so that concrete runs evaluate. -/

namespace TW

/-- Prefix test on strings, as JS String.prototype.startsWith. -/
def jsStartsWith (s p : String) : Bool := p.data.isPrefixOf s.data

/-- Characters of a string with leading and trailing whitespace removed. -/
def trimChars (cs : List Char) : List Char :=
  ((cs.dropWhile Char.isWhitespace).reverse.dropWhile Char.isWhitespace).reverse

/-- Whitespace trimming, as JS String.prototype.trim. -/
def jsTrim (s : String) : String := String.mk (trimChars s.data)

/-- Split of a character list at every occurrence of a separator character,
    as JS String.prototype.split with a one-character separator. -/
def splitOnChar (sep : Char) : List Char → List (List Char)
  | [] => [[]]
  | c :: cs =>
    if c = sep then [] :: splitOnChar sep cs
    else
      match splitOnChar sep cs with
      | [] => [[c]]
      | g :: gs => (c :: g) :: gs

/-- An extracted entry: row id, title text, and timestamp string. -/
structure Entry where
  id : String
  title : String
  iso : String
deriving DecidableEq

/-- The age cell reachable from a row (span.age in the companion row): its
    optional title attribute and its text content. -/
structure AgeEl where
  titleAttr : Option String
  text : String
deriving DecidableEq

/-- One candidate row of a rendered page (tr.athing): its optional id
    attribute, the optional title-link text, and the optional age cell. -/
structure Row where
  idAttr : Option String
  titleText : Option String
  age : Option AgeEl
deriving DecidableEq

/-- A rendered page as the in-page extraction code sees it: the candidate rows
    and, when a morelink element is present, its optional href attribute. -/
structure DomPage where
  rows : List Row
  moreAttr : Option (Option String)
deriving DecidableEq

/-- Result of one scrape: the parsed items and the next-page href. -/
structure PageResult where
  items : List Entry
  moreHref : Option String
deriving DecidableEq

/-- Row id: the id attribute of tr with null mapped to the empty string. -/
def extractId (r : Row) : String := r.idAttr.getD ("")

/-- Row title: the text of the title element, trimmed, or empty when the element is
    absent. -/
def extractTitle (r : Row) : String :=
  match r.titleText with
  | some t => jsTrim t
  | none => ("")

/-- Row timestamp: the title attribute of the age element; when that is null or
    empty, its trimmed text content; empty when the element is absent. -/
def extractIso (r : Row) : String :=
  let isoAttr : String := match r.age with
    | some ag => ag.titleAttr.getD ("")
    | none => ("")
  if isoAttr = ("") then
    match r.age with
    | some ag => jsTrim ag.text
    | none => ("")
  else isoAttr

/-- Per-row extraction of scrapePage: an entry is produced exactly when the
    derived id, title, and timestamp are all non-empty (JS truthiness check
    `if (id && title && iso)`). -/
def rowToEntry (r : Row) : Option Entry :=
  let id := extractId r
  let title := extractTitle r
  let iso := extractIso r
  if id ≠ ("") ∧ title ≠ ("") ∧ iso ≠ ("") then some ⟨id, title, iso⟩ else none

/-- The page.evaluate extraction: every row is filtered through rowToEntry,
    and moreHref is the href of the morelink (null when the element is absent). -/
def parsePage (p : DomPage) : PageResult :=
  { items := p.rows.filterMap rowToEntry
    moreHref := match p.moreAttr with
      | none => none
      | some h => h }

def BASE : String := ("https://news.ycombinator.com")

def START : String := BASE ++ ("/newest")

def MAX_PAGES_DEFAULT : Nat := 15

/-- Removal of one leading slash, as the JS replace of the anchored slash. -/
def stripLeadingSlash (s : String) : String :=
  if jsStartsWith s ("/") then String.mk (s.data.drop 1) else s

/-- The url for the next page: the href itself when absolute, otherwise the
    base with the slash-stripped href appended. -/
def nextUrl (h : String) : String :=
  if jsStartsWith h ("http") then h else BASE ++ ("/") ++ stripLeadingSlash h

/-- The view the fetch collaborator has of one url: the rendered page at goto time
    and the rendered page after the soft reload of the same url. -/
structure FetchedPage where
  first : DomPage
  reloaded : DomPage
deriving DecidableEq

/-- A source assigns rendered content to every url. -/
def Source : Type := String → FetchedPage

/-- One page visit: scrape, and when zero items were parsed, soft-reload once
    and re-scrape; the second component counts the reloads performed (0 or 1). -/
def visitPage (src : Source) (u : String) : PageResult × Nat :=
  let r := parsePage (src u).first
  if r.items = [] then (parsePage (src u).reloaded, 1) else (r, 0)

/-- The merge loop of the collector: each item whose id is not already seen is
    appended to both the seen ids and the collected list; the loop breaks as
    soon as the collected length reaches the target count. -/
def mergeLoop (want : Nat) : List Entry → List String → List Entry → List String × List Entry
  | [], seen, coll => (seen, coll)
  | it :: rest, seen, coll =>
    if it.id ∈ seen then mergeLoop want rest seen coll
    else
      if want ≤ (coll ++ [it]).length then (seen ++ [it.id], coll ++ [it])
      else mergeLoop want rest (seen ++ [it.id]) (coll ++ [it])

/-- The collection loop state: the dedup set (as its insertion-ordered id
    list), the collected entries, the page counter, the current url, and a
    ghost trace recording each visited url with its reload count. -/
structure LoopState where
  seen : List String
  collected : List Entry
  pages : Nat
  url : String
  trace : List (String × Nat)
deriving DecidableEq

def initState : LoopState := ⟨[], [], 0, START, []⟩

/-- The main collection loop. Each iteration visits the current url, merges
    the parsed items, increments the page counter, and stops on a reached
    count, an absent morelink, or directly through the guard on the page
    budget. The fuel only bounds the recursion; fuel = maxPages is exact
    because pages grows by one per iteration and the guard requires
    pages < maxPages. -/
def loopAux (src : Source) (want m : Nat) : Nat → LoopState → LoopState
  | 0, st => st
  | fuel+1, st =>
    if st.collected.length < want ∧ st.pages < m then
      let v := visitPage src st.url
      let sc := mergeLoop want v.1.items st.seen st.collected
      let st1 : LoopState := ⟨sc.1, sc.2, st.pages + 1, st.url, st.trace ++ [(st.url, v.2)]⟩
      if want ≤ sc.2.length then st1
      else
        match v.1.moreHref with
        | none => st1
        | some h => loopAux src want m fuel { st1 with url := nextUrl h }
    else st

/-- A whole run: the loop from the initial state with fuel maxPages. -/
def runState (src : Source) (want m : Nat) : LoopState := loopAux src want m m initState

/-- The reported outcome record. -/
structure Outcome where
  ok : Bool
  requested : Nat
  collected : Nat
  pages : Nat
  maxPages : Nat
  items : List Entry
  dups : Int
deriving DecidableEq

/-- Reporting of a final state: ok is collected.length >= want, items is
    collected truncated to the requested count, dups is
    seen.size - collected.length as printed by the text summary. -/
def runOutcome (src : Source) (want m : Nat) : Outcome :=
  let F := runState src want m
  { ok := decide (want ≤ F.collected.length)
    requested := want
    collected := F.collected.length
    pages := F.pages
    maxPages := m
    items := F.collected.take want
    dups := (F.seen.length : Int) - (F.collected.length : Int) }

/-- The sequence of page results reachable from a url in at most n visits,
    following morelink hrefs, with the same reload rule as the loop. -/
def chain (src : Source) : Nat → String → List PageResult
  | 0, _ => []
  | n+1, u =>
    (visitPage src u).1 ::
      (match (visitPage src u).1.moreHref with
       | none => []
       | some h => chain src n (nextUrl h))

/-- First occurrences, in order, of entries whose id is not in the
    accumulated id list. -/
def dedupFrom (seen : List String) : List Entry → List Entry
  | [] => []
  | e :: es => if e.id ∈ seen then dedupFrom seen es else e :: dedupFrom (seen ++ [e.id]) es

/-- The parsed CLI configuration. -/
structure Args where
  count : Nat
  head : Bool
  json : Bool
  maxPages : Nat
deriving DecidableEq

/-- Maximal digit prefix of a character list. -/
def takeDigits : List Char → List Char
  | [] => []
  | c :: cs => if c.isDigit then c :: takeDigits cs else []

/-- Value of a digit list, most significant first. -/
def digitsVal (ds : List Char) : Nat := ds.foldl (fun a c => 10 * a + (c.toNat - 48)) 0

/-- JS parseInt(s, 10): optional leading whitespace and sign, then a maximal
    digit prefix; none models NaN. -/
def parseIntJS (s : String) : Option Int :=
  match s.data.dropWhile Char.isWhitespace with
  | '-' :: rest =>
    match takeDigits rest with
    | [] => none
    | ds => some (-(digitsVal ds : Int))
  | '+' :: rest =>
    match takeDigits rest with
    | [] => none
    | ds => some ((digitsVal ds : Int))
  | cs =>
    match takeDigits cs with
    | [] => none
    | ds => some ((digitsVal ds : Int))

/-- The flag value a.split('=')[1]; an out-of-range JS index gives undefined,
    which parseInt treats like the empty string (both give NaN). -/
def argValue (a : String) : String := String.mk ((splitOnChar '=' a.data).getD 1 [])

/-- Math.max(1, v || dflt): NaN (none) and 0 fall back to the default, then
    the floor of 1 is applied. -/
def jsCoerce (v : Option Int) (dflt : Nat) : Nat :=
  (max 1 (match v with
          | none => (dflt : Int)
          | some n => if n = 0 then (dflt : Int) else n)).toNat

/-- One step of the argument loop of parseArgs. -/
def applyArg (args : Args) (a : String) : Args :=
  if jsStartsWith a ("--count=") then
    { args with count := jsCoerce (parseIntJS (argValue a)) 100 }
  else if a = ("--head") ∨ a = ("--headed") then { args with head := true }
  else if a = ("--json") then { args with json := true }
  else if jsStartsWith a ("--max-pages=") then
    { args with maxPages := jsCoerce (parseIntJS (argValue a)) MAX_PAGES_DEFAULT }
  else args

/-- parseArgs: fold of the flag handlers over argv.slice(2), starting from the
    defaults count=100, head=false, json=false, maxPages=15. -/
def parseArgs (argv : List String) : Args :=
  (argv.drop 2).foldl applyArg ⟨100, false, false, MAX_PAGES_DEFAULT⟩

/-- Modelled from the spec: the number of duplicate identifiers encountered
    strictly before the cap was reached, scanning items in merge order. Used
    only to compare the reported dups counter with the description the spec gives of
    it. -/
def specDupCount (want : Nat) : List String → List Entry → Nat
  | _, [] => 0
  | seen, e :: es =>
    if e.id ∈ seen then 1 + specDupCount want seen es
    else if want ≤ seen.length + 1 then 0
    else specDupCount want (seen ++ [e.id]) es

/-- Concatenation of the items of a list of page results. -/
def flatItems : List PageResult → List Entry
  | [] => []
  | p :: ps => p.items ++ flatItems ps

theorem loopAux_zero (src : Source) (want m : Nat) (st : LoopState) :
    loopAux src want m 0 st = st := rfl

theorem loopAux_succ (src : Source) (want m fuel : Nat) (st : LoopState) :
    loopAux src want m (fuel+1) st =
      if st.collected.length < want ∧ st.pages < m then
        let v := visitPage src st.url
        let sc := mergeLoop want v.1.items st.seen st.collected
        let st1 : LoopState := ⟨sc.1, sc.2, st.pages + 1, st.url, st.trace ++ [(st.url, v.2)]⟩
        if want ≤ sc.2.length then st1
        else
          match v.1.moreHref with
          | none => st1
          | some h => loopAux src want m fuel { st1 with url := nextUrl h }
      else st := rfl

theorem chain_succ (src : Source) (n : Nat) (u : String) :
    chain src (n+1) u =
      (visitPage src u).1 ::
        (match (visitPage src u).1.moreHref with
         | none => []
         | some h => chain src n (nextUrl h)) := rfl

theorem chain_stop (src : Source) (u : String)
    (hnone : (visitPage src u).1.moreHref = none) (n : Nat) :
    chain src (n+1) u = [(visitPage src u).1] := by
  rw [chain_succ, hnone]

theorem chain_go (src : Source) (u : String) (hh : String)
    (hsome : (visitPage src u).1.moreHref = some hh) (n : Nat) :
    chain src (n+1) u = (visitPage src u).1 :: chain src n (nextUrl hh) := by
  rw [chain_succ, hsome]

/-- When the seen ids are exactly the ids of the collected entries, the merge
    loop keeps them so: ids and entries are appended in lockstep. -/
theorem merge_pair (want : Nat) :
    ∀ (items : List Entry) (seen : List String) (coll : List Entry),
      seen = coll.map Entry.id →
      (mergeLoop want items seen coll).1 = (mergeLoop want items seen coll).2.map Entry.id := by
  intro items
  induction items with
  | nil => intro seen coll h; simpa [mergeLoop] using h
  | cons it rest ih =>
    intro seen coll h
    simp only [mergeLoop]
    by_cases hmem : it.id ∈ seen
    · rw [if_pos hmem]; exact ih seen coll h
    · rw [if_neg hmem]
      by_cases hcap : want ≤ (coll ++ [it]).length
      · rw [if_pos hcap]; simp [h]
      · rw [if_neg hcap]
        exact ih (seen ++ [it.id]) (coll ++ [it]) (by simp [h])

/-- The collected output of the merge loop: the old entries followed by the
    first occurrences of new ids, truncated to the target count. -/
theorem merge_take (want : Nat) :
    ∀ (items : List Entry) (seen : List String) (coll : List Entry),
      coll.length < want →
      (mergeLoop want items seen coll).2 = (coll ++ dedupFrom seen items).take want := by
  intro items
  induction items with
  | nil =>
    intro seen coll h
    simp [mergeLoop, dedupFrom, List.take_of_length_le (Nat.le_of_lt h)]
  | cons it rest ih =>
    intro seen coll h
    simp only [mergeLoop]
    by_cases hmem : it.id ∈ seen
    · rw [if_pos hmem]
      simp only [dedupFrom, if_pos hmem]
      exact ih seen coll h
    · rw [if_neg hmem]
      simp only [dedupFrom, if_neg hmem]
      by_cases hcap : want ≤ (coll ++ [it]).length
      · rw [if_pos hcap]
        have hlen : want = coll.length + 1 := by
          simp only [List.length_append, List.length_singleton] at hcap; omega
        have hsub : coll.length + 1 - coll.length = 1 := by omega
        rw [hlen, List.take_append_eq_append_take,
          List.take_of_length_le (Nat.le_succ _), hsub]
        simp
      · rw [if_neg hcap]
        have h1 : (coll ++ [it]).length < want := by
          simp only [List.length_append, List.length_singleton] at hcap ⊢; omega
        rw [ih (seen ++ [it.id]) (coll ++ [it]) h1, List.append_assoc]
        simp

/-- The merge loop preserves distinctness of the collected ids. -/
theorem merge_inv (want : Nat) :
    ∀ (items : List Entry) (seen : List String) (coll : List Entry),
      seen = coll.map Entry.id → (coll.map Entry.id).Nodup →
      ((mergeLoop want items seen coll).2.map Entry.id).Nodup := by
  intro items
  induction items with
  | nil => intro seen coll _ hnd; simpa [mergeLoop] using hnd
  | cons it rest ih =>
    intro seen coll h hnd
    simp only [mergeLoop]
    by_cases hmem : it.id ∈ seen
    · rw [if_pos hmem]; exact ih seen coll h hnd
    · have hnd1 : ((coll ++ [it]).map Entry.id).Nodup := by
        rw [h] at hmem
        simp [List.nodup_append, hnd, hmem]
      rw [if_neg hmem]
      by_cases hcap : want ≤ (coll ++ [it]).length
      · rw [if_pos hcap]; exact hnd1
      · rw [if_neg hcap]
        exact ih (seen ++ [it.id]) (coll ++ [it]) (by simp [h]) hnd1

/-- The merge loop only appends to the collected list. -/
theorem merge_grows (want : Nat) :
    ∀ (items : List Entry) (seen : List String) (coll : List Entry),
      coll <+: (mergeLoop want items seen coll).2 := by
  intro items
  induction items with
  | nil => intro seen coll; simp [mergeLoop]
  | cons it rest ih =>
    intro seen coll
    simp only [mergeLoop]
    by_cases hmem : it.id ∈ seen
    · rw [if_pos hmem]; exact ih seen coll
    · rw [if_neg hmem]
      by_cases hcap : want ≤ (coll ++ [it]).length
      · rw [if_pos hcap]; exact List.prefix_append coll [it]
      · rw [if_neg hcap]
        exact (List.prefix_append coll [it]).trans (ih (seen ++ [it.id]) (coll ++ [it]))

/-- Splitting a dedup of a concatenation at the junction: the second part is
    deduplicated against the ids accumulated by the first. -/
theorem dedup_append :
    ∀ (xs ys : List Entry) (s : List String),
      dedupFrom s (xs ++ ys)
        = dedupFrom s xs ++ dedupFrom (s ++ (dedupFrom s xs).map Entry.id) ys := by
  intro xs
  induction xs with
  | nil => intro ys s; simp [dedupFrom]
  | cons x rest ih =>
    intro ys s
    show dedupFrom s (x :: (rest ++ ys)) = _
    simp only [dedupFrom]
    by_cases hmem : x.id ∈ s
    · rw [if_pos hmem, if_pos hmem]
      exact ih ys s
    · rw [if_neg hmem, if_neg hmem]
      rw [ih ys (s ++ [x.id])]
      simp [List.append_assoc]

/-- Dedup produces distinct ids, none of which were already accumulated. -/
theorem dedup_ids :
    ∀ (l : List Entry) (s : List String),
      ((dedupFrom s l).map Entry.id).Nodup
      ∧ ∀ x ∈ (dedupFrom s l).map Entry.id, x ∉ s := by
  intro l
  induction l with
  | nil => intro s; simp [dedupFrom]
  | cons e es ih =>
    intro s
    by_cases hmem : e.id ∈ s
    · simpa [dedupFrom, hmem] using ih s
    · have h1 := ih (s ++ [e.id])
      simp only [dedupFrom, if_neg hmem, List.map_cons, List.nodup_cons, List.mem_cons]
      refine ⟨⟨?_, h1.1⟩, ?_⟩
      · intro hc
        have := h1.2 _ hc
        simp at this
      · intro x hx
        rcases hx with hx | hx
        · subst hx; exact hmem
        · intro hxs
          exact (h1.2 _ hx) (by simp [hxs])

/-- Dedup keeps a subsequence of the scanned entries, in order. -/
theorem dedup_sublist :
    ∀ (l : List Entry) (s : List String), (dedupFrom s l).Sublist l := by
  intro l
  induction l with
  | nil => intro s; simp [dedupFrom]
  | cons e es ih =>
    intro s
    by_cases hmem : e.id ∈ s
    · simp only [dedupFrom, if_pos hmem]
      exact (ih s).cons e
    · simp only [dedupFrom, if_neg hmem]
      exact (ih (s ++ [e.id])).cons₂ e

/-- The state after one visit-and-merge of the current page: merged seen ids
    and collected entries, the page counter incremented, the visit recorded. -/
def mergedSt (src : Source) (want : Nat) (st : LoopState) : LoopState :=
  ⟨(mergeLoop want (visitPage src st.url).1.items st.seen st.collected).1,
   (mergeLoop want (visitPage src st.url).1.items st.seen st.collected).2,
   st.pages + 1, st.url, st.trace ++ [(st.url, (visitPage src st.url).2)]⟩

theorem loopAux_succ_eq (src : Source) (want m fuel : Nat) (st : LoopState) :
    loopAux src want m (fuel+1) st =
      if st.collected.length < want ∧ st.pages < m then
        if want ≤ (mergedSt src want st).collected.length then mergedSt src want st
        else
          match (visitPage src st.url).1.moreHref with
          | none => mergedSt src want st
          | some h => loopAux src want m fuel { mergedSt src want st with url := nextUrl h }
      else st := rfl

theorem visit_snd (src : Source) (u : String) :
    (visitPage src u).2 = if (parsePage (src u).first).items = [] then 1 else 0 := by
  simp only [visitPage]
  split <;> rfl

theorem visit_fst (src : Source) (u : String) :
    (visitPage src u).1 =
      if (parsePage (src u).first).items = []
      then parsePage (src u).reloaded else parsePage (src u).first := by
  simp only [visitPage]
  split <;> rfl

/-- A visit performs at most one soft reload. -/
theorem visit_reloads_le (src : Source) (u : String) : (visitPage src u).2 ≤ 1 := by
  rw [visit_snd]
  split <;> omega

/-- A visit that yields zero items was empty on the first scrape and on the
    re-scrape after the soft reload. -/
theorem visit_items_empty (src : Source) (u : String)
    (h : (visitPage src u).1.items = []) :
    (parsePage (src u).first).items = [] ∧ (parsePage (src u).reloaded).items = [] := by
  rw [visit_fst] at h
  by_cases hc : (parsePage (src u).first).items = []
  · rw [if_pos hc] at h
    exact ⟨hc, h⟩
  · rw [if_neg hc] at h
    exact absurd h hc

/-- The loop never decreases the page counter and never pushes it past the
    page budget. -/
theorem loop_pages (src : Source) (want m : Nat) :
    ∀ (fuel : Nat) (st : LoopState),
      st.pages ≤ (loopAux src want m fuel st).pages
      ∧ (st.pages ≤ m → (loopAux src want m fuel st).pages ≤ m) := by
  intro fuel
  induction fuel with
  | zero => intro st; exact ⟨Nat.le_refl _, fun h => h⟩
  | succ fuel ih =>
    intro st
    rw [loopAux_succ_eq]
    by_cases hg : st.collected.length < want ∧ st.pages < m
    · rw [if_pos hg]
      by_cases hcap : want ≤ (mergedSt src want st).collected.length
      · rw [if_pos hcap]
        exact ⟨Nat.le_succ _, fun _ => hg.2⟩
      · rw [if_neg hcap]
        cases hmh : (visitPage src st.url).1.moreHref with
        | none => exact ⟨Nat.le_succ _, fun _ => hg.2⟩
        | some h =>
          have h2 := ih { mergedSt src want st with url := nextUrl h }
          exact ⟨Nat.le_trans (Nat.le_succ _) h2.1, fun _ => h2.2 hg.2⟩
    · rw [if_neg hg]
      exact ⟨Nat.le_refl _, fun h => h⟩

/-- The loop only appends to the collected list. -/
theorem loop_grows (src : Source) (want m : Nat) :
    ∀ (fuel : Nat) (st : LoopState),
      st.collected <+: (loopAux src want m fuel st).collected := by
  intro fuel
  induction fuel with
  | zero => intro st; exact List.prefix_refl _
  | succ fuel ih =>
    intro st
    rw [loopAux_succ_eq]
    by_cases hg : st.collected.length < want ∧ st.pages < m
    · rw [if_pos hg]
      have hm : st.collected <+: (mergedSt src want st).collected :=
        merge_grows want (visitPage src st.url).1.items st.seen st.collected
      by_cases hcap : want ≤ (mergedSt src want st).collected.length
      · rw [if_pos hcap]; exact hm
      · rw [if_neg hcap]
        cases hmh : (visitPage src st.url).1.moreHref with
        | none => exact hm
        | some h => exact hm.trans (ih { mergedSt src want st with url := nextUrl h })
    · rw [if_neg hg]

/-- One trace record is appended per visited page, and every record added by
    the loop carries a reload count of at most one. -/
theorem loop_trace (src : Source) (want m : Nat) :
    ∀ (fuel : Nat) (st : LoopState),
      (loopAux src want m fuel st).trace.length + st.pages
        = st.trace.length + (loopAux src want m fuel st).pages
      ∧ ∀ r ∈ (loopAux src want m fuel st).trace, r ∈ st.trace ∨ r.2 ≤ 1 := by
  intro fuel
  induction fuel with
  | zero => intro st; exact ⟨rfl, fun r hr => Or.inl hr⟩
  | succ fuel ih =>
    intro st
    rw [loopAux_succ_eq]
    by_cases hg : st.collected.length < want ∧ st.pages < m
    · rw [if_pos hg]
      have hstep : ∀ r, r ∈ (mergedSt src want st).trace → r ∈ st.trace ∨ r.2 ≤ 1 := by
        intro r hr
        rcases List.mem_append.mp hr with hr | hr
        · exact Or.inl hr
        · right
          have : r = (st.url, (visitPage src st.url).2) := by simpa using hr
          rw [this]
          exact visit_reloads_le src st.url
      have hlen : (mergedSt src want st).trace.length = st.trace.length + 1 := by
        simp [mergedSt]
      by_cases hcap : want ≤ (mergedSt src want st).collected.length
      · rw [if_pos hcap]
        exact ⟨by simp [mergedSt]; omega, hstep⟩
      · rw [if_neg hcap]
        cases hmh : (visitPage src st.url).1.moreHref with
        | none => exact ⟨by simp [mergedSt]; omega, hstep⟩
        | some h =>
          have h2 := ih { mergedSt src want st with url := nextUrl h }
          constructor
          · have := h2.1
            simp only [LoopState.pages, LoopState.trace, mergedSt] at this ⊢
            simp at this
            omega
          · intro r hr
            rcases h2.2 r hr with hr2 | hr2
            · exact hstep r hr2
            · exact Or.inr hr2
    · rw [if_neg hg]
      exact ⟨rfl, fun r hr => Or.inl hr⟩

/-- Any fuel of at least maxPages - pages computes the same final state: the
    loop terminates within the page budget. -/
theorem loop_fuel (src : Source) (want m : Nat) :
    ∀ (f1 f2 : Nat) (st : LoopState), m ≤ st.pages + f1 → m ≤ st.pages + f2 →
      loopAux src want m f1 st = loopAux src want m f2 st := by
  intro f1
  induction f1 with
  | zero =>
    intro f2 st h1 h2
    have hng : ¬ (st.collected.length < want ∧ st.pages < m) := by
      rintro ⟨-, hp⟩; omega
    cases f2 with
    | zero => rfl
    | succ f2 => rw [loopAux_zero, loopAux_succ_eq, if_neg hng]
  | succ f1 ih =>
    intro f2 st h1 h2
    cases f2 with
    | zero =>
      have hng : ¬ (st.collected.length < want ∧ st.pages < m) := by
        rintro ⟨-, hp⟩; omega
      rw [loopAux_zero, loopAux_succ_eq, if_neg hng]
    | succ f2 =>
      rw [loopAux_succ_eq, loopAux_succ_eq]
      by_cases hg : st.collected.length < want ∧ st.pages < m
      · rw [if_pos hg, if_pos hg]
        by_cases hcap : want ≤ (mergedSt src want st).collected.length
        · rw [if_pos hcap, if_pos hcap]
        · rw [if_neg hcap, if_neg hcap]
          cases hmh : (visitPage src st.url).1.moreHref with
          | none => rfl
          | some h =>
            exact ih f2 { mergedSt src want st with url := nextUrl h }
              (by simp only [mergedSt]; omega) (by simp only [mergedSt]; omega)
      · rw [if_neg hg, if_neg hg]

theorem chain_one (src : Source) (u : String) :
    chain src 1 u = [(visitPage src u).1] := by
  rw [chain_succ]
  cases hmh : (visitPage src u).1.moreHref <;> simp [chain]

/-- Main loop invariant: the final collected list is the initial one followed
    by the first occurrences of new ids over the chain of visited pages,
    truncated to the target count; the seen ids mirror the collected entries;
    and the loop stops only by reaching the count, exhausting the page
    budget, or exhausting the chain of pages. -/
theorem loop_master (src : Source) (want m : Nat) :
    ∀ (fuel : Nat) (st : LoopState),
      st.seen = st.collected.map Entry.id →
      st.collected.length ≤ want →
      st.pages ≤ m →
      m ≤ st.pages + fuel →
      ((loopAux src want m fuel st).collected
        = (st.collected
            ++ dedupFrom st.seen
                 (flatItems (chain src ((loopAux src want m fuel st).pages - st.pages) st.url))).take want)
      ∧ (loopAux src want m fuel st).seen = (loopAux src want m fuel st).collected.map Entry.id
      ∧ (want ≤ (loopAux src want m fuel st).collected.length
         ∨ (loopAux src want m fuel st).pages = m
         ∨ ∀ n, (loopAux src want m fuel st).pages - st.pages ≤ n →
             chain src n st.url = chain src ((loopAux src want m fuel st).pages - st.pages) st.url) := by
  intro fuel
  induction fuel with
  | zero =>
    intro st hseen hlen hpm hfuel
    rw [loopAux_zero]
    have hpe : st.pages = m := by omega
    refine ⟨?_, hseen, Or.inr (Or.inl hpe)⟩
    simp [Nat.sub_self, chain, flatItems, dedupFrom, List.take_of_length_le hlen]
  | succ fuel ih =>
    intro st hseen hlen hpm hfuel
    rw [loopAux_succ_eq]
    by_cases hg : st.collected.length < want ∧ st.pages < m
    · rw [if_pos hg]
      have hmtake : (mergedSt src want st).collected
          = (st.collected ++ dedupFrom st.seen (visitPage src st.url).1.items).take want :=
        merge_take want (visitPage src st.url).1.items st.seen st.collected hg.1
      have hmpair : (mergedSt src want st).seen = (mergedSt src want st).collected.map Entry.id :=
        merge_pair want (visitPage src st.url).1.items st.seen st.collected hseen
      have hp1 : (mergedSt src want st).pages - st.pages = 1 := by
        simp only [mergedSt]; omega
      by_cases hcap : want ≤ (mergedSt src want st).collected.length
      · rw [if_pos hcap]
        refine ⟨?_, hmpair, Or.inl hcap⟩
        rw [hp1, chain_one]
        simpa [flatItems] using hmtake
      · rw [if_neg hcap]
        have hXlen : (st.collected ++ dedupFrom st.seen (visitPage src st.url).1.items).length < want := by
          by_cases hXw : want ≤ (st.collected ++ dedupFrom st.seen (visitPage src st.url).1.items).length
          · exfalso
            apply hcap
            rw [hmtake, List.length_take]
            omega
          · omega
        have hX : (mergedSt src want st).collected
            = st.collected ++ dedupFrom st.seen (visitPage src st.url).1.items := by
          rw [hmtake, List.take_of_length_le (Nat.le_of_lt hXlen)]
        cases hmh : (visitPage src st.url).1.moreHref with
        | none =>
          refine ⟨?_, hmpair, Or.inr (Or.inr ?_)⟩
          · rw [hp1, chain_stop src st.url hmh 0]
            simpa [flatItems] using hmtake
          · intro n hn
            rw [hp1] at hn ⊢
            obtain ⟨n2, rfl⟩ : ∃ n2, n = n2 + 1 := ⟨n - 1, by omega⟩
            rw [chain_stop src st.url hmh n2, chain_stop src st.url hmh 0]
        | some h =>
          have hlt : (mergedSt src want st).collected.length < want := Nat.lt_of_not_le hcap
          have hseen2 : ({ mergedSt src want st with url := nextUrl h }).seen
              = ({ mergedSt src want st with url := nextUrl h }).collected.map Entry.id := hmpair
          have hlen2 : ({ mergedSt src want st with url := nextUrl h }).collected.length ≤ want :=
            Nat.le_of_lt hlt
          have hpm2 : ({ mergedSt src want st with url := nextUrl h }).pages ≤ m := hg.2
          have hfuel2 : m ≤ ({ mergedSt src want st with url := nextUrl h }).pages + fuel := by
            have : ({ mergedSt src want st with url := nextUrl h }).pages = st.pages + 1 := rfl
            omega
          have ih2 := ih { mergedSt src want st with url := nextUrl h } hseen2 hlen2 hpm2 hfuel2
          have hmono :=
            (loop_pages src want m fuel { mergedSt src want st with url := nextUrl h }).1
          have hpmono : st.pages + 1
              ≤ (loopAux src want m fuel { mergedSt src want st with url := nextUrl h }).pages :=
            hmono
          have hq : (loopAux src want m fuel { mergedSt src want st with url := nextUrl h }).pages - st.pages
              = ((loopAux src want m fuel { mergedSt src want st with url := nextUrl h }).pages - (st.pages + 1)) + 1 := by
            omega
          have hseenX : (mergedSt src want st).seen
              = st.seen ++ (dedupFrom st.seen (visitPage src st.url).1.items).map Entry.id := by
            rw [hmpair, hX, List.map_append, hseen]
          refine ⟨?_, ih2.2.1, ?_⟩
          · rw [hq, chain_go src st.url h hmh]
            have hflat : flatItems ((visitPage src st.url).1
                  :: chain src ((loopAux src want m fuel { mergedSt src want st with url := nextUrl h }).pages - (st.pages + 1)) (nextUrl h))
                = (visitPage src st.url).1.items
                  ++ flatItems (chain src ((loopAux src want m fuel { mergedSt src want st with url := nextUrl h }).pages - (st.pages + 1)) (nextUrl h)) := rfl
            rw [hflat, dedup_append, ← hseenX, ← List.append_assoc, ← hX]
            exact ih2.1
          · rcases ih2.2.2 with hres | hres | hres
            · exact Or.inl hres
            · exact Or.inr (Or.inl hres)
            · refine Or.inr (Or.inr ?_)
              intro n hn
              rw [hq] at hn ⊢
              obtain ⟨n2, rfl⟩ : ∃ n2, n = n2 + 1 := ⟨n - 1, by omega⟩
              rw [chain_go src st.url h hmh n2, chain_go src st.url h hmh]
              have hst2p : ({ mergedSt src want st with url := nextUrl h }).pages = st.pages + 1 := rfl
              have hrec : chain src n2 (nextUrl h)
                  = chain src ((loopAux src want m fuel { mergedSt src want st with url := nextUrl h }).pages - (st.pages + 1)) (nextUrl h) := by
                have := hres n2 (by rw [hst2p]; omega)
                rw [this, hst2p]
              rw [hrec]
    · rw [if_neg hg]
      have hdis : want ≤ st.collected.length ∨ st.pages = m := by omega
      refine ⟨?_, hseen, ?_⟩
      · simp [Nat.sub_self, chain, flatItems, dedupFrom, List.take_of_length_le hlen]
      · rcases hdis with h | h
        · exact Or.inl h
        · exact Or.inr (Or.inl h)

/-- The loop invariant instantiated at a whole run. -/
theorem run_master (src : Source) (want m : Nat) :
    (runState src want m).collected
      = (dedupFrom [] (flatItems (chain src (runState src want m).pages START))).take want
    ∧ (runState src want m).seen = (runState src want m).collected.map Entry.id
    ∧ (want ≤ (runState src want m).collected.length
       ∨ (runState src want m).pages = m
       ∨ ∀ n, (runState src want m).pages ≤ n →
           chain src n START = chain src (runState src want m).pages START) := by
  have h := loop_master src want m m initState rfl (Nat.zero_le _) (Nat.zero_le _) (by omega)
  simp only [initState] at h
  simpa [runState, initState] using h

/-- A run never collects more than the requested count. -/
theorem run_collected_le (src : Source) (want m : Nat) :
    (runState src want m).collected.length ≤ want := by
  rw [(run_master src want m).1]
  exact List.length_take_le _ _

/-- A run never visits more than maxPages pages. -/
theorem run_pages_le (src : Source) (want m : Nat) : (runState src want m).pages ≤ m :=
  (loop_pages src want m m initState).2 (Nat.zero_le _)

theorem flatItems_append (a b : List PageResult) :
    flatItems (a ++ b) = flatItems a ++ flatItems b := by
  induction a with
  | nil => simp [flatItems]
  | cons p ps ih => simp [flatItems, ih]

/-- A shorter chain is a prefix of a longer one from the same url. -/
theorem chain_grows (src : Source) :
    ∀ (k n : Nat) (u : String), k ≤ n → chain src k u <+: chain src n u := by
  intro k
  induction k with
  | zero =>
    intro n u h
    rw [show chain src 0 u = [] from rfl]
    exact List.nil_prefix
  | succ k ihk =>
    intro n u h
    obtain ⟨n2, rfl⟩ : ∃ n2, n = n2 + 1 := ⟨n - 1, by omega⟩
    rw [chain_succ, chain_succ]
    cases hmh : (visitPage src u).1.moreHref with
    | none => exact List.prefix_refl _
    | some h2 =>
      obtain ⟨t, ht⟩ := ihk n2 (nextUrl h2) (by omega)
      exact ⟨t, by rw [List.cons_append, ht]⟩

/-- When every page exposes a morelink, the chain of n pages has exactly n
    elements. -/
theorem chain_length_all (src : Source)
    (hs : ∀ u, ((visitPage src u).1.moreHref).isSome = true) :
    ∀ (n : Nat) (u : String), (chain src n u).length = n := by
  intro n
  induction n with
  | zero => intro u; rfl
  | succ n ihn =>
    intro u
    obtain ⟨h2, hh⟩ := Option.isSome_iff_exists.mp (hs u)
    rw [chain_go src u h2 hh, List.length_cons, ihn]

/-- Uniques over a longer chain are at least the uniques over a shorter one. -/
theorem dedup_chain_mono (src : Source) (k n : Nat) (hkn : k ≤ n) :
    (dedupFrom [] (flatItems (chain src k START))).length
      ≤ (dedupFrom [] (flatItems (chain src n START))).length := by
  obtain ⟨t, ht⟩ := chain_grows src k n START hkn
  rw [← ht, flatItems_append, dedup_append, List.length_append]
  omega

/-- Runs with a smaller and a larger target from the same state agree on the
    collected entries up to the smaller target: the collected list of the smaller run is the take of that of the larger run. -/
theorem loop_sim (src : Source) (m w1 w2 : Nat) (hw : w1 ≤ w2) :
    ∀ (fuel : Nat) (st : LoopState),
      st.seen = st.collected.map Entry.id →
      st.collected.length ≤ w1 →
      (loopAux src w1 m fuel st).collected = ((loopAux src w2 m fuel st).collected).take w1 := by
  intro fuel
  induction fuel with
  | zero =>
    intro st hseen hlen
    rw [loopAux_zero, loopAux_zero, List.take_of_length_le hlen]
  | succ fuel ih =>
    intro st hseen hlen
    by_cases hg1 : st.collected.length < w1 ∧ st.pages < m
    · have hg2 : st.collected.length < w2 ∧ st.pages < m := ⟨Nat.lt_of_lt_of_le hg1.1 hw, hg1.2⟩
      rw [loopAux_succ_eq, loopAux_succ_eq, if_pos hg1, if_pos hg2]
      have ht1 : (mergedSt src w1 st).collected
          = (st.collected ++ dedupFrom st.seen (visitPage src st.url).1.items).take w1 :=
        merge_take w1 (visitPage src st.url).1.items st.seen st.collected hg1.1
      have ht2 : (mergedSt src w2 st).collected
          = (st.collected ++ dedupFrom st.seen (visitPage src st.url).1.items).take w2 :=
        merge_take w2 (visitPage src st.url).1.items st.seen st.collected hg2.1
      have htt : (mergedSt src w1 st).collected = ((mergedSt src w2 st).collected).take w1 := by
        rw [ht1, ht2, List.take_take, min_eq_left hw]
      by_cases hcap1 : w1 ≤ (mergedSt src w1 st).collected.length
      · rw [if_pos hcap1]
        have hb1 : (mergedSt src w1 st).collected.length ≤ w1 := by
          rw [ht1]; exact List.length_take_le _ _
        have hXge : w1 ≤ (st.collected ++ dedupFrom st.seen (visitPage src st.url).1.items).length := by
          have h3 := congrArg List.length ht1
          rw [List.length_take] at h3
          omega
        have hw2X : w1 ≤ (mergedSt src w2 st).collected.length := by
          rw [ht2, List.length_take]
          omega
        by_cases hcap2 : w2 ≤ (mergedSt src w2 st).collected.length
        · rw [if_pos hcap2]; exact htt
        · rw [if_neg hcap2]
          cases hmh : (visitPage src st.url).1.moreHref with
          | none => exact htt
          | some h =>
            obtain ⟨t, ht⟩ := loop_grows src w2 m fuel { mergedSt src w2 st with url := nextUrl h }
            rw [← ht, List.take_append_eq_append_take]
            have hz : w1 - ({ mergedSt src w2 st with url := nextUrl h }).collected.length = 0 := by
              have h4 : ({ mergedSt src w2 st with url := nextUrl h }).collected.length
                  = (mergedSt src w2 st).collected.length := rfl
              omega
            rw [hz, List.take_zero, List.append_nil]
            exact htt
      · rw [if_neg hcap1]
        have hlt1 : (mergedSt src w1 st).collected.length < w1 := Nat.lt_of_not_le hcap1
        have hXlen : (st.collected ++ dedupFrom st.seen (visitPage src st.url).1.items).length < w1 := by
          by_cases hXw : w1 ≤ (st.collected ++ dedupFrom st.seen (visitPage src st.url).1.items).length
          · exfalso
            apply hcap1
            rw [ht1, List.length_take]
            omega
          · omega
        have heq : (mergedSt src w1 st).collected = (mergedSt src w2 st).collected := by
          rw [ht1, ht2, List.take_of_length_le (Nat.le_of_lt hXlen),
            List.take_of_length_le (by omega)]
        have hleneq : (mergedSt src w2 st).collected.length < w1 := by
          have := congrArg List.length heq
          omega
        have hcap2 : ¬ w2 ≤ (mergedSt src w2 st).collected.length := by omega
        rw [if_neg hcap2]
        have hp1 : (mergedSt src w1 st).seen = (mergedSt src w1 st).collected.map Entry.id :=
          merge_pair w1 (visitPage src st.url).1.items st.seen st.collected hseen
        have hp2 : (mergedSt src w2 st).seen = (mergedSt src w2 st).collected.map Entry.id :=
          merge_pair w2 (visitPage src st.url).1.items st.seen st.collected hseen
        have hseq2 : (mergeLoop w1 (visitPage src st.url).1.items st.seen st.collected).1
            = (mergeLoop w2 (visitPage src st.url).1.items st.seen st.collected).1 := by
          have : (mergedSt src w1 st).seen = (mergedSt src w2 st).seen := by
            rw [hp1, hp2, heq]
          exact this
        have heq2 : (mergeLoop w1 (visitPage src st.url).1.items st.seen st.collected).2
            = (mergeLoop w2 (visitPage src st.url).1.items st.seen st.collected).2 := heq
        have hmeq : mergedSt src w1 st = mergedSt src w2 st := by
          unfold mergedSt
          rw [hseq2, heq2]
        cases hmh : (visitPage src st.url).1.moreHref with
        | none =>
          rw [heq, List.take_of_length_le (Nat.le_of_lt hleneq)]
        | some h =>
          rw [hmeq]
          exact ih { mergedSt src w2 st with url := nextUrl h } hp2 (Nat.le_of_lt hleneq)
    · rw [loopAux_succ_eq, if_neg hg1]
      by_cases hp : st.pages < m
      · have hlene : st.collected.length = w1 := by omega
        obtain ⟨t, ht⟩ := loop_grows src w2 m (fuel+1) st
        rw [← ht, ← hlene, List.take_left]
      · have hg2 : ¬ (st.collected.length < w2 ∧ st.pages < m) := fun h2 => hp h2.2
        rw [loopAux_succ_eq, if_neg hg2, List.take_of_length_le hlen]

/-- A merge that reaches the cap inside a prefix of the items never looks at
    the rest of the page: seen ids and collected entries are those of the
    prefix merge alone. -/
theorem merge_break_tail (want : Nat) :
    ∀ (xs ys : List Entry) (seen : List String) (coll : List Entry),
      coll.length < want →
      want ≤ (mergeLoop want xs seen coll).2.length →
      mergeLoop want (xs ++ ys) seen coll = mergeLoop want xs seen coll := by
  intro xs
  induction xs with
  | nil =>
    intro ys seen coll h1 h2
    simp only [mergeLoop] at h2
    omega
  | cons x rest ih =>
    intro ys seen coll h1 h2
    show mergeLoop want (x :: (rest ++ ys)) seen coll = _
    simp only [mergeLoop] at h2 ⊢
    by_cases hmem : x.id ∈ seen
    · simp only [if_pos hmem] at h2 ⊢
      exact ih ys seen coll h1 h2
    · simp only [if_neg hmem] at h2 ⊢
      by_cases hcap : want ≤ (coll ++ [x]).length
      · simp only [if_pos hcap] at h2 ⊢
      · simp only [if_neg hcap] at h2 ⊢
        refine ih ys (seen ++ [x.id]) (coll ++ [x]) ?_ h2
        simp only [List.length_append, List.length_singleton] at hcap ⊢
        omega

/-- The loop preserves the dedup invariant. -/
def StateInv (st : LoopState) : Prop :=
  st.seen = st.collected.map Entry.id ∧ (st.collected.map Entry.id).Nodup

instance (st : LoopState) : Decidable (StateInv st) := by
  unfold StateInv
  infer_instance

theorem loop_inv (src : Source) (want m : Nat) :
    ∀ (fuel : Nat) (st : LoopState), StateInv st → StateInv (loopAux src want m fuel st) := by
  intro fuel
  induction fuel with
  | zero => intro st h; exact h
  | succ fuel ih =>
    intro st h
    rw [loopAux_succ_eq]
    by_cases hg : st.collected.length < want ∧ st.pages < m
    · rw [if_pos hg]
      have hmi : StateInv (mergedSt src want st) :=
        ⟨merge_pair want (visitPage src st.url).1.items st.seen st.collected h.1,
         merge_inv want (visitPage src st.url).1.items st.seen st.collected h.1 h.2⟩
      by_cases hcap : want ≤ (mergedSt src want st).collected.length
      · rw [if_pos hcap]; exact hmi
      · rw [if_neg hcap]
        cases hmh : (visitPage src st.url).1.moreHref with
        | none => exact hmi
        | some h2 => exact ih { mergedSt src want st with url := nextUrl h2 } hmi
    · rw [if_neg hg]; exact h

/-- A row with the given id, title and timestamp attribute values. -/
def rowOf (i t s : String) : Row := ⟨some i, some t, some ⟨some s, ("")⟩⟩

def entryOf (i t s : String) : Entry := ⟨i, t, s⟩

/-- A source whose every page is empty with no morelink. -/
def srcEmpty : Source := fun _ => ⟨⟨[], none⟩, ⟨[], none⟩⟩

/-- A source whose first page parses empty on both scrapes but keeps a
    morelink to a second page holding one entry. -/
def cexSrc1 : Source := fun u =>
  if u = BASE ++ ("/p2") then
    ⟨⟨[rowOf ("b") ("tb") ("sb")], none⟩, ⟨[rowOf ("b") ("tb") ("sb")], none⟩⟩
  else ⟨⟨[], some (some ("p2"))⟩, ⟨[], some (some ("p2"))⟩⟩

/-- A source with a single page holding a duplicated id before a fresh one. -/
def cexSrc3 : Source := fun _ =>
  ⟨⟨[rowOf ("a") ("ta") ("sa"), rowOf ("a") ("t2") ("s2"), rowOf ("b") ("tb") ("sb")], none⟩,
   ⟨[], none⟩⟩

/-- A source whose every page holds the same single entry and a morelink. -/
def srcInf : Source := fun _ =>
  ⟨⟨[rowOf ("a") ("ta") ("sa")], some (some ("x"))⟩, ⟨[], none⟩⟩

/-- A source with a single page of three distinct entries and no morelink. -/
def srcAB : Source := fun _ =>
  ⟨⟨[rowOf ("a") ("ta") ("sa"), rowOf ("b") ("tb") ("sb"), rowOf ("c") ("tc") ("sc")], none⟩,
   ⟨[], none⟩⟩

/-- A row whose id attribute is whitespace only. -/
def badRow : Row := ⟨some (" "), some ("T"), some ⟨some ("x"), ("y")⟩⟩

/-- Claim C1, counterexample: in the run over cexSrc1 the first page parses to
    zero entries, the re-parse after the soft reload is still zero entries,
    yet the engine fetches a further page: the trace records two visited
    pages and the run ends on page two with its entry collected. -/
theorem C1_counterexample :
    (parsePage (cexSrc1 START).first).items = []
    ∧ (parsePage (cexSrc1 START).reloaded).items = []
    ∧ (runState cexSrc1 1 15).trace.length = 2
    ∧ (runState cexSrc1 1 15).pages = 2
    ∧ (runState cexSrc1 1 15).collected = [entryOf ("b") ("tb") ("sb")] := by
  decide

/-- Claim C1, amended: if a page parses to zero entries, the re-parse after
    the single soft reload still yields zero entries, and the re-parsed page
    exposes no next-page href, the run terminates there: the state is final
    with the page counter incremented once, the reload recorded, and nothing
    merged; no further page is fetched. -/
theorem C1_empty_page_stops (src : Source) (want m fuel : Nat) (st : LoopState)
    (h1 : st.collected.length < want) (h2 : st.pages < m)
    (hitems : (visitPage src st.url).1.items = [])
    (hmore : (visitPage src st.url).1.moreHref = none) :
    loopAux src want m (fuel+1) st
      = { st with pages := st.pages + 1, trace := st.trace ++ [(st.url, 1)] } := by
  have hv2 : (visitPage src st.url).2 = 1 := by
    rw [visit_snd, if_pos (visit_items_empty src st.url hitems).1]
  have hm : mergedSt src want st
      = { st with pages := st.pages + 1, trace := st.trace ++ [(st.url, 1)] } := by
    unfold mergedSt
    rw [hitems, hv2]
    rfl
  rw [loopAux_succ_eq, if_pos ⟨h1, h2⟩, hm,
    if_neg (show ¬ want ≤ st.collected.length by omega), hmore]

theorem C1_empty_page_stops_witness :
    initState.collected.length < 1
    ∧ initState.pages < 15
    ∧ (visitPage srcEmpty initState.url).1.items = []
    ∧ (visitPage srcEmpty initState.url).1.moreHref = none
    ∧ loopAux srcEmpty 1 15 15 initState
        = { initState with pages := 1, trace := [(START, 1)] } :=
  ⟨by decide, by decide, rfl, rfl,
   C1_empty_page_stops srcEmpty 1 15 14 initState (by decide) (by decide) rfl rfl⟩

/-- Claim C2: if the pages reachable within the maxPages budget supply at
    least the requested number of unique entries, the run ends ok with
    exactly the requested number collected; and no run ever collects more
    than requested. -/
theorem C2_threshold_correctness (src : Source) (want m : Nat)
    (hsup : want ≤ (dedupFrom [] (flatItems (chain src m START))).length) :
    (runOutcome src want m).ok = true
    ∧ (runOutcome src want m).collected = want
    ∧ (runState src want m).collected.length ≤ want := by
  have hlen : want ≤ (runState src want m).collected.length := by
    rcases (run_master src want m).2.2 with h | h | h
    · exact h
    · rw [(run_master src want m).1, List.length_take, h]
      exact le_min (Nat.le_refl want) hsup
    · have hc := h m (run_pages_le src want m)
      rw [(run_master src want m).1, List.length_take, ← hc]
      exact le_min (Nat.le_refl want) hsup
  refine ⟨?_, ?_, run_collected_le src want m⟩
  · simp only [runOutcome, decide_eq_true_eq]
    exact hlen
  · simp only [runOutcome]
    have := run_collected_le src want m
    omega

theorem C2_threshold_correctness_witness :
    2 ≤ (dedupFrom [] (flatItems (chain srcAB 5 START))).length
    ∧ (runOutcome srcAB 2 5).ok = true
    ∧ (runOutcome srcAB 2 5).collected = 2 :=
  ⟨by decide,
   (C2_threshold_correctness srcAB 2 5 (by decide)).1,
   (C2_threshold_correctness srcAB 2 5 (by decide)).2.1⟩

/-- Claim C3, counterexample: in the run over cexSrc3 with a target of two, a
    duplicate id is encountered strictly before the cap is reached, yet the
    reported duplicate counter seen.size - collected.length is zero, not one:
    the counter never counts duplicates, because duplicates are never added
    to the seen set in the first place. -/
theorem C3_counterexample :
    (runState cexSrc3 2 15).collected.length = 2
    ∧ specDupCount 2 [] ((parsePage (cexSrc3 START).first).items) = 1
    ∧ (runOutcome cexSrc3 2 15).dups = 0
    ∧ (runOutcome cexSrc3 2 15).dups
        ≠ (specDupCount 2 [] ((parsePage (cexSrc3 START).first).items) : Int) := by
  decide

/-- Claim C3, amended: once the cap is reached during the merge of a page, no
    subsequent entry of that page is examined, so neither seenIds nor
    collected grows further — they stop at the same instant; and because
    every seen id is paired with a collected entry, the reported counter
    seenIds.size - collected.length is always exactly zero (hence ≥ 0, and
    counting no duplicate at all). -/
theorem C3_amended :
    (∀ (want : Nat) (xs ys : List Entry) (seen : List String) (coll : List Entry),
      coll.length < want →
      want ≤ (mergeLoop want xs seen coll).2.length →
      mergeLoop want (xs ++ ys) seen coll = mergeLoop want xs seen coll)
    ∧ ∀ (src : Source) (want m : Nat), (runOutcome src want m).dups = 0 := by
  refine ⟨fun want xs ys seen coll => merge_break_tail want xs ys seen coll, ?_⟩
  intro src want m
  have hp := (run_master src want m).2.1
  have hl : (runState src want m).seen.length = (runState src want m).collected.length := by
    rw [hp, List.length_map]
  simp only [runOutcome, hl]
  omega

theorem C3_amended_witness :
    ([entryOf ("a") ("ta") ("sa")] : List Entry).length < 1 + 1
    ∧ mergeLoop 1 ([entryOf ("a") ("ta") ("sa")] ++ [entryOf ("b") ("tb") ("sb")]) [] []
        = mergeLoop 1 [entryOf ("a") ("ta") ("sa")] [] []
    ∧ (runOutcome cexSrc3 2 15).dups = 0 :=
  ⟨by decide,
   C3_amended.1 1 [entryOf ("a") ("ta") ("sa")] [entryOf ("b") ("tb") ("sb")] [] []
     (by decide) (by decide),
   C3_amended.2 cexSrc3 2 15⟩

/-- Claim C4: running with a target of 100 and with a target of 150 against
    the same source and page budget yields reported items agreeing at every
    position 0 through 99: the items of the 100-run are exactly the first 100 items of the 150-run. -/
theorem C4_prefix_stability (src : Source) (m : Nat) :
    (runOutcome src 100 m).items = ((runOutcome src 150 m).items).take 100 := by
  simp only [runOutcome]
  rw [List.take_take, min_eq_left (by omega),
    List.take_of_length_le (run_collected_le src 100 m)]
  exact loop_sim src m 100 150 (by omega) m initState rfl (Nat.zero_le _)

/-- Claim C5: the initial state satisfies the dedup invariant, the merge loop
    and the collection loop both preserve it, and under it the collected
    length never exceeds the seen-set size, the id of every collected entry is in
    the seen set, and no two collected entries share an id. -/
theorem C5_dedup_invariant :
    StateInv initState
    ∧ (∀ (want : Nat) (items : List Entry) (seen : List String) (coll : List Entry),
        seen = coll.map Entry.id → (coll.map Entry.id).Nodup →
        (mergeLoop want items seen coll).1 = (mergeLoop want items seen coll).2.map Entry.id
        ∧ ((mergeLoop want items seen coll).2.map Entry.id).Nodup)
    ∧ (∀ (src : Source) (want m fuel : Nat) (st : LoopState),
        StateInv st → StateInv (loopAux src want m fuel st))
    ∧ (∀ (st : LoopState), StateInv st →
        st.collected.length ≤ st.seen.length
        ∧ (∀ e ∈ st.collected, e.id ∈ st.seen)
        ∧ List.Pairwise (fun a b => a.id ≠ b.id) st.collected) := by
  refine ⟨⟨rfl, List.nodup_nil⟩, ?_, ?_, ?_⟩
  · intro want items seen coll hp hnd
    exact ⟨merge_pair want items seen coll hp, merge_inv want items seen coll hp hnd⟩
  · intro src want m fuel st h
    exact loop_inv src want m fuel st h
  · rintro st ⟨hp, hnd⟩
    refine ⟨?_, ?_, ?_⟩
    · rw [hp, List.length_map]
    · intro e he
      rw [hp]
      exact List.mem_map_of_mem Entry.id he
    · exact List.pairwise_map.mp hnd

theorem C5_dedup_invariant_witness :
    StateInv initState
    ∧ StateInv (loopAux srcAB 2 5 5 initState)
    ∧ (runState srcAB 2 15).collected.length ≤ (runState srcAB 2 15).seen.length :=
  ⟨by decide,
   C5_dedup_invariant.2.2.1 srcAB 2 5 5 initState (by decide),
   (C5_dedup_invariant.2.2.2 (runState srcAB 2 15) (by decide)).1⟩

/-- Claim C6: the collected entries of a run are exactly the first
    occurrences, in scan order across the visited pages, of the unique ids,
    truncated to the requested count; they form a subsequence of the
    concatenated page items (first-seen order, never re-sorted); and the
    reported items are that list unchanged. -/
theorem C6_order_stability (src : Source) (want m : Nat) :
    (runState src want m).collected
      = (dedupFrom [] (flatItems (chain src (runState src want m).pages START))).take want
    ∧ (runState src want m).collected.Sublist
        (flatItems (chain src (runState src want m).pages START))
    ∧ (runOutcome src want m).items = (runState src want m).collected := by
  refine ⟨(run_master src want m).1, ?_, ?_⟩
  · rw [(run_master src want m).1]
    exact (List.take_sublist _ _).trans (dedup_sublist _ _)
  · simp only [runOutcome]
    exact List.take_of_length_le (run_collected_le src want m)

/-- Claim C7: every page visit performs at most one soft reload; the final
    trace holds one record per visited page, so the page counter equals the
    trace length whether or not reloads fired; and every recorded visit
    carries a reload count of at most one. -/
theorem C7_reload_once (src : Source) (want m : Nat) :
    (∀ u, (visitPage src u).2 ≤ 1)
    ∧ (runState src want m).trace.length = (runState src want m).pages
    ∧ (∀ r ∈ (runState src want m).trace, r.2 ≤ 1) := by
  refine ⟨fun u => visit_reloads_le src u, ?_, ?_⟩
  · have h := (loop_trace src want m m initState).1
    simpa [runState, initState] using h
  · intro r hr
    rcases (loop_trace src want m m initState).2 r hr with h | h
    · simp [initState] at h
    · exact h

theorem C7_reload_once_witness :
    ((START, 1) : String × Nat) ∈ (runState cexSrc1 1 15).trace
    ∧ ((START, 1) : String × Nat).2 ≤ 1 :=
  ⟨by decide, (C7_reload_once cexSrc1 1 15).2.2 (START, 1) (by decide)⟩

/-- Claim C8, counterexample: a row whose id attribute is a single space
    yields an Entry (the code checks truthiness, not trimmed content), even
    though the id is empty after trimming — refuting the claim that an Entry
    is yielded only when id, title, and timestamp are non-empty after
    trimming. -/
theorem C8_counterexample :
    rowToEntry badRow = some ⟨(" "), ("T"), ("x")⟩
    ∧ jsTrim (extractId badRow) = ("") := by
  decide

/-- Claim C8, amended: an entry appears in a parsed page exactly for the rows
    whose derived id (raw attribute, untrimmed), derived title (element text,
    trimmed), and derived timestamp (raw title attribute, or trimmed display
    text as fallback) are all non-empty; rows failing this contribute
    nothing — no error and no entry. -/
theorem C8_valid_row (p : DomPage) (e : Entry) :
    e ∈ (parsePage p).items
    ↔ ∃ r ∈ p.rows,
        (extractId r ≠ ("") ∧ extractTitle r ≠ ("") ∧ extractIso r ≠ (""))
        ∧ e = ⟨extractId r, extractTitle r, extractIso r⟩ := by
  simp only [parsePage, List.mem_filterMap]
  constructor
  · rintro ⟨r, hr, he⟩
    refine ⟨r, hr, ?_⟩
    simp only [rowToEntry] at he
    by_cases hc : extractId r ≠ ("") ∧ extractTitle r ≠ ("") ∧ extractIso r ≠ ("")
    · rw [if_pos hc] at he
      exact ⟨hc, (Option.some.inj he).symm⟩
    · rw [if_neg hc] at he
      exact absurd he (by simp)
  · rintro ⟨r, hr, hc, rfl⟩
    refine ⟨r, hr, ?_⟩
    simp only [rowToEntry]
    rw [if_pos hc]

/-- Claim C9: a run never visits more than maxPages pages; any fuel of at
    least maxPages computes the same final state, so maxPages alone bounds
    the loop; and for a source that always exposes a morelink while unique
    entries stay short of the target — no other stopping condition ever
    fires — the run visits exactly maxPages pages. -/
theorem C9_page_budget (src : Source) (want m : Nat) :
    (runState src want m).pages ≤ m
    ∧ (∀ fuel, m ≤ fuel → loopAux src want m fuel initState = runState src want m)
    ∧ ((∀ u, ((visitPage src u).1.moreHref).isSome = true) →
       (dedupFrom [] (flatItems (chain src m START))).length < want →
       (runState src want m).pages = m) := by
  refine ⟨run_pages_le src want m, ?_, ?_⟩
  · intro fuel hf
    exact loop_fuel src want m fuel m initState
      (show m ≤ initState.pages + fuel by have h0 : initState.pages = 0 := rfl; omega)
      (show m ≤ initState.pages + m by have h0 : initState.pages = 0 := rfl; omega)
  · intro hall hless
    rcases (run_master src want m).2.2 with h | h | h
    · exfalso
      have h1 : (runState src want m).collected.length
          ≤ (dedupFrom [] (flatItems (chain src (runState src want m).pages START))).length := by
        rw [(run_master src want m).1, List.length_take]
        exact min_le_right _ _
      have h2 := dedup_chain_mono src (runState src want m).pages m (run_pages_le src want m)
      omega
    · exact h
    · exfalso
      have hc := h ((runState src want m).pages + 1) (by omega)
      have l1 := chain_length_all src hall ((runState src want m).pages + 1) START
      have l2 := chain_length_all src hall (runState src want m).pages START
      rw [hc] at l1
      omega

theorem C9_page_budget_witness :
    (∀ u, ((visitPage srcInf u).1.moreHref).isSome = true)
    ∧ (dedupFrom [] (flatItems (chain srcInf 3 START))).length < 2
    ∧ (runState srcInf 2 3).pages = 3 :=
  ⟨fun u => rfl, by decide,
   (C9_page_budget srcInf 2 3).2.2 (fun u => rfl) (by decide)⟩

/-- Claim C10: a count flag whose value parses to 0 or fails to parse yields
    the default 100 (the JS expression parseInt(v) || 100 treats 0 and NaN as
    falsy), a max-pages flag likewise yields the default 15, and only values
    that parse below 1 — negatives — are coerced up to 1, while values of at
    least 1 pass through. -/
theorem C10_parseArgs_defaults (x y a : String) :
    (jsStartsWith a ("--count=") = true →
      ((parseIntJS (argValue a) = none ∨ parseIntJS (argValue a) = some 0) →
          (parseArgs [x, y, a]).count = 100)
      ∧ (∀ k : Int, parseIntJS (argValue a) = some k → k < 0 →
          (parseArgs [x, y, a]).count = 1)
      ∧ (∀ k : Int, parseIntJS (argValue a) = some k → 1 ≤ k →
          (parseArgs [x, y, a]).count = k.toNat))
    ∧ (jsStartsWith a ("--count=") = false → a ≠ ("--head") → a ≠ ("--headed") →
       a ≠ ("--json") → jsStartsWith a ("--max-pages=") = true →
      ((parseIntJS (argValue a) = none ∨ parseIntJS (argValue a) = some 0) →
          (parseArgs [x, y, a]).maxPages = 15)
      ∧ (∀ k : Int, parseIntJS (argValue a) = some k → k < 0 →
          (parseArgs [x, y, a]).maxPages = 1)
      ∧ (∀ k : Int, parseIntJS (argValue a) = some k → 1 ≤ k →
          (parseArgs [x, y, a]).maxPages = k.toNat)) := by
  have hred : parseArgs [x, y, a] = applyArg ⟨100, false, false, MAX_PAGES_DEFAULT⟩ a := rfl
  constructor
  · intro hcnt
    have happ : parseArgs [x, y, a]
        = { (⟨100, false, false, MAX_PAGES_DEFAULT⟩ : Args) with
            count := jsCoerce (parseIntJS (argValue a)) 100 } := by
      rw [hred]
      unfold applyArg
      rw [if_pos hcnt]
    refine ⟨?_, ?_, ?_⟩
    · rintro (h | h) <;> rw [happ, h] <;> decide
    · intro k hk hkneg
      rw [happ, hk]
      show (max 1 (if k = 0 then ((100 : Nat) : Int) else k)).toNat = 1
      rw [if_neg (show ¬ k = 0 by omega), max_eq_left (show k ≤ 1 by omega)]
      rfl
    · intro k hk hkpos
      rw [happ, hk]
      show (max 1 (if k = 0 then ((100 : Nat) : Int) else k)).toNat = k.toNat
      rw [if_neg (show ¬ k = 0 by omega), max_eq_right (show (1 : Int) ≤ k by omega)]
  · intro hnc hh1 hh2 hj hmp
    have happ : parseArgs [x, y, a]
        = { (⟨100, false, false, MAX_PAGES_DEFAULT⟩ : Args) with
            maxPages := jsCoerce (parseIntJS (argValue a)) MAX_PAGES_DEFAULT } := by
      rw [hred]
      unfold applyArg
      rw [if_neg (show ¬ jsStartsWith a ("--count=") = true by simp [hnc]),
        if_neg (show ¬ (a = ("--head") ∨ a = ("--headed")) by simp [hh1, hh2]),
        if_neg hj, if_pos hmp]
    refine ⟨?_, ?_, ?_⟩
    · rintro (h | h) <;> rw [happ, h] <;> decide
    · intro k hk hkneg
      rw [happ, hk]
      show (max 1 (if k = 0 then ((MAX_PAGES_DEFAULT : Nat) : Int) else k)).toNat = 1
      rw [if_neg (show ¬ k = 0 by omega), max_eq_left (show k ≤ 1 by omega)]
      rfl
    · intro k hk hkpos
      rw [happ, hk]
      show (max 1 (if k = 0 then ((MAX_PAGES_DEFAULT : Nat) : Int) else k)).toNat = k.toNat
      rw [if_neg (show ¬ k = 0 by omega), max_eq_right (show (1 : Int) ≤ k by omega)]

theorem C10_parseArgs_defaults_witness :
    jsStartsWith ("--count=0") ("--count=") = true
    ∧ (parseArgs [("node"), ("index.js"), ("--count=0")]).count = 100
    ∧ jsStartsWith ("--max-pages=xyz") ("--max-pages=") = true
    ∧ (parseArgs [("node"), ("index.js"), ("--max-pages=xyz")]).maxPages = 15 :=
  ⟨by decide,
   ((C10_parseArgs_defaults ("node") ("index.js") ("--count=0")).1 (by decide)).1
     (Or.inr (by decide)),
   by decide,
   ((C10_parseArgs_defaults ("node") ("index.js") ("--max-pages=xyz")).2 (by decide)
       (by decide) (by decide) (by decide) (by decide)).1
     (Or.inl (by decide))⟩

end TW
